/-
Verification of the grocery-list aggregation engine of the MealAgent repository
(`grocery_list.py`, data model from `models.py`).

The Python code is shallowly embedded below:
* Pydantic models become Lean structures.  `quantity` is a Python float used
  only additively; it is modelled as `ℚ` (all quantities appearing in the
  spec's examples are exactly representable, and addition on them is exact).
* Python strings are Lean `String`s; `str.lower` / `str.strip` / `str.upper`
  are embedded as explicit functions over the character list (`pyLower`,
  `pyStrip`, `pyUpper`), which agree with Python on ASCII data.
* Python's insertion-ordered `dict` in `generate_grocery_list` is embedded as
  an append-only list: the dict key is written but never looked up, and a key
  collision is impossible (equal keys imply `can_combine_ingredients`, which
  would have merged the entry during the linear scan instead).
* `list.sort` / `sorted` are stable ascending sorts by a key; any two stable
  sorts by the same total preorder produce the same list, so they are embedded
  as `List.insertionSort` (stable) by the corresponding `≤` relation, where
  string comparison is code-point lexicographic exactly as in Python.
-/
import Mathlib

/-! ### Python string primitives (ASCII fragment) -/

/-- Python `str.lower` on one character (ASCII range). -/
def pyLowerChar (c : Char) : Char :=
  if 'A' ≤ c ∧ c ≤ 'Z' then Char.ofNat (c.toNat + 32) else c

/-- Python `str.upper` on one character (ASCII range). -/
def pyUpperChar (c : Char) : Char :=
  if 'a' ≤ c ∧ c ≤ 'z' then Char.ofNat (c.toNat - 32) else c

/-- Python `str.lower`. -/
def pyLower (s : String) : String := String.mk (s.data.map pyLowerChar)

/-- Python `str.upper`. -/
def pyUpper (s : String) : String := String.mk (s.data.map pyUpperChar)

/-- Python whitespace as used by `str.strip()`. -/
def isPySpace (c : Char) : Bool :=
  c == ' ' || c == '\t' || c == '\n' || c == '\r' || c == '\x0b' || c == '\x0c'

/-- Python `str.strip()`: drop whitespace from both ends. -/
def pyStrip (s : String) : String :=
  String.mk (((s.data.dropWhile isPySpace).reverse.dropWhile isPySpace).reverse)

/-! ### Data model (`models.py`) -/

/-- `models.DayOfWeek`. -/
inductive DayOfWeek where
  | MONDAY | TUESDAY | WEDNESDAY | THURSDAY | FRIDAY | SATURDAY | SUNDAY
deriving DecidableEq

/-- `models.MacroProfile`. -/
inductive MacroProfile where
  | HIGH_PROTEIN_LOW_CARB | KID_FRIENDLY_BALANCED | BALANCED
deriving DecidableEq

/-- `datetime.date`, only carried around as plan metadata (`week_of`). -/
structure CalDate where
  year : Nat
  month : Nat
  day : Nat
deriving DecidableEq

/-- `models.Ingredient`: name, quantity, unit, optional category. -/
structure Ingredient where
  name : String
  quantity : ℚ
  unit : String
  category : Option String
deriving DecidableEq

/-- `models.RecipeStep`. -/
structure RecipeStep where
  order : Nat
  instruction : String
deriving DecidableEq

/-- `models.Recipe`: ingredient list plus metadata irrelevant to aggregation. -/
structure Recipe where
  title : String
  description : String
  servings : Nat
  macro_profile : MacroProfile
  meal_type : String
  prep_time_min : Nat
  cook_time_min : Nat
  ingredients : List Ingredient
  steps : List RecipeStep
deriving DecidableEq

/-- `models.PlannedMeal`. -/
structure PlannedMeal where
  day : DayOfWeek
  audience : String
  meal_type : String
  recipe : Recipe
deriving DecidableEq

/-- `models.WeeklyPlan`. -/
structure WeeklyPlan where
  meals : List PlannedMeal
  week_of : CalDate
deriving DecidableEq

/-- `config.Config`: static configuration.  `generate_grocery_list` accepts it
for interface symmetry but reads none of its fields. -/
structure Config where
  ADULT_SERVINGS : Nat
  CHILD_SERVINGS : Nat
  LEFTOVERS_FACTOR : ℚ
  MEAL_TYPES : List String
  ALLERGIES_AVOID : List String

/-! ### Normalization (`grocery_list.py` lines 8-29) -/

/-- `normalize_ingredient_name`: `name.lower().strip()`. -/
def normalize_ingredient_name (name : String) : String :=
  pyStrip (pyLower name)

/-- The `unit_mappings` dict of `normalize_unit`. -/
def unit_mappings : List (String × String) :=
  [("cup", "cups"), ("c", "cups"),
   ("pound", "lbs"), ("lb", "lbs"), ("pounds", "lbs"),
   ("ounce", "oz"), ("ounces", "oz"),
   ("piece", "pieces"), ("item", "pieces"), ("whole", "pieces")]

/-- `normalize_unit`: lowercase, strip, then `unit_mappings.get(u, u)`. -/
def normalize_unit (unit : String) : String :=
  let unit_lower := pyStrip (pyLower unit)
  (unit_mappings.lookup unit_lower).getD unit_lower

/-! ### Combinability (`grocery_list.py` lines 32-61) -/

/-- The `compatible_units` groups of `can_combine_ingredients`. -/
def compatible_units : List (List String) :=
  [["cups", "cup"],
   ["lbs", "lb", "pound", "pounds"],
   ["oz", "ounce", "ounces"],
   ["pieces", "piece", "whole", "item"],
   ["tbsp", "tablespoon", "tablespoons"],
   ["tsp", "teaspoon", "teaspoons"]]

/-- `can_combine_ingredients`: same normalized name, and equal normalized units
or both normalized units inside one compatibility group. -/
def can_combine_ingredients (ing1 ing2 : Ingredient) : Bool :=
  let name1 := normalize_ingredient_name ing1.name
  let name2 := normalize_ingredient_name ing2.name
  if name1 ≠ name2 then false
  else
    let unit1 := normalize_unit ing1.unit
    let unit2 := normalize_unit ing2.unit
    if unit1 = unit2 then true
    else compatible_units.any fun unit_group =>
      unit_group.contains unit1 && unit_group.contains unit2

/-! ### Aggregation (`generate_grocery_list`, lines 64-113) -/

/-- The body of the inner loop of `generate_grocery_list` (lines 80-101) for a
single incoming ingredient: linearly scan the accumulated entries in insertion
order; on the first combinable entry add the incoming quantity in place and
stop; if none combines, append a fresh entry built from this first
occurrence's own name, quantity, unit and category. -/
def combineOrInsert (ingredient : Ingredient) : List Ingredient → List Ingredient
  | [] =>
      [Ingredient.mk ingredient.name ingredient.quantity ingredient.unit ingredient.category]
  | existing :: rest =>
      if can_combine_ingredients ingredient existing then
        { existing with quantity := existing.quantity + ingredient.quantity } :: rest
      else
        existing :: combineOrInsert ingredient rest

/-- The iteration order of `generate_grocery_list`'s two nested loops:
all ingredients of all meals, in plan order then recipe order. -/
def planIngredients (plan : WeeklyPlan) : List Ingredient :=
  plan.meals.flatMap fun meal => meal.recipe.ingredients

/-- The aggregation loop of `generate_grocery_list` (lines 76-101). -/
def aggregateIngredients (ins : List Ingredient) : List Ingredient :=
  ins.foldl (fun acc ingredient => combineOrInsert ingredient acc) []

/-- `sort_key` (lines 107-109): `(category or "zzz_uncategorized").lower()`
paired with the normalized name.  Python `or` replaces both `None` and the
empty string. -/
def sort_key (ing : Ingredient) : String × String :=
  let category := match ing.category with
    | none => "zzz_uncategorized"
    | some c => if c = "" then "zzz_uncategorized" else c
  (pyLower category, normalize_ingredient_name ing.name)

/-- The order on sort keys used by Python's tuple comparison:
`k1 ≤ k2` iff `¬ (k2 < k1)` in lexicographic order. -/
def keyLE (k1 k2 : String × String) : Prop :=
  k1.1 < k2.1 ∨ (k1.1 = k2.1 ∧ k1.2 ≤ k2.2)

instance : DecidableRel keyLE := fun k1 k2 => by
  unfold keyLE; infer_instance

/-- The sort relation of `grocery_list.sort(key=sort_key)` on entries. -/
def ingLE (a b : Ingredient) : Prop := keyLE (sort_key a) (sort_key b)

instance : DecidableRel ingLE := fun a b => by
  unfold ingLE; infer_instance

instance : IsTotal Ingredient ingLE where
  total a b := by
    unfold ingLE keyLE
    rcases lt_trichotomy (sort_key a).1 (sort_key b).1 with h | h | h
    · exact Or.inl (Or.inl h)
    · rcases le_total (sort_key a).2 (sort_key b).2 with h2 | h2
      · exact Or.inl (Or.inr ⟨h, h2⟩)
      · exact Or.inr (Or.inr ⟨h.symm, h2⟩)
    · exact Or.inr (Or.inl h)

instance : IsTrans Ingredient ingLE where
  trans a b c hab hbc := by
    unfold ingLE keyLE at hab hbc ⊢
    rcases hab with h1 | ⟨h1, h1'⟩
    · rcases hbc with h2 | ⟨h2, _⟩
      · exact Or.inl (h1.trans h2)
      · exact Or.inl (h2 ▸ h1)
    · rcases hbc with h2 | ⟨h2, h2'⟩
      · exact Or.inl (h1 ▸ h2)
      · exact Or.inr ⟨h1.trans h2, h1'.trans h2'⟩

/-- `generate_grocery_list` (lines 64-113): aggregate, then stable-sort by
`sort_key`.  Python's `list.sort` is a stable ascending sort; it is embedded
as the (stable) insertion sort by the relation `ingLE`. -/
def generate_grocery_list (plan : WeeklyPlan) (config : Config) : List Ingredient :=
  let grocery_list := aggregateIngredients (planIngredients plan)
  List.insertionSort ingLE grocery_list

/-! ### Display formatting (`format_grocery_list_for_display`, lines 116-159) -/

/-- The relation of `sorted(..., key=str.lower)` (line 135-138). -/
def lowerLE (s1 s2 : String) : Prop := pyLower s1 ≤ pyLower s2

instance : DecidableRel lowerLE := fun s1 s2 => by
  unfold lowerLE; infer_instance

/-- The relation of `sorted(..., key=lambda x: normalize_ingredient_name(x.name))`
(line 150). -/
def nameLE (a b : Ingredient) : Prop :=
  normalize_ingredient_name a.name ≤ normalize_ingredient_name b.name

instance : DecidableRel nameLE := fun a b => by
  unfold nameLE; infer_instance

/-- One step of the `defaultdict(list)` grouping of lines 127-129: append the
ingredient to its category's group, creating the group at the end on first
occurrence (Python dicts preserve insertion order). -/
def addToGroups (groups : List (Option String × List Ingredient)) (ing : Ingredient) :
    List (Option String × List Ingredient) :=
  match groups with
  | [] => [(ing.category, [ing])]
  | (cat, members) :: rest =>
      if cat = ing.category then (cat, members ++ [ing]) :: rest
      else (cat, members) :: addToGroups rest ing

/-- `by_category` (lines 127-129): groups keyed by the raw category value. -/
def groupByCategory (grocery_list : List Ingredient) :
    List (Option String × List Ingredient) :=
  grocery_list.foldl addToGroups []

/-- `by_category[category]`, `[]` when the key is absent (defaultdict). -/
def lookupGroup (cat : Option String) :
    List (Option String × List Ingredient) → List Ingredient
  | [] => []
  | (c, members) :: rest => if c = cat then members else lookupGroup cat rest

/-- Lines 134-140: `sorted([cat for cat in by_category.keys() if cat],
key=str.lower)`, then append `None` when present.  Python's `if cat` drops
both `None` and the empty string `""`. -/
def displayedCategories (grocery_list : List Ingredient) : List (Option String) :=
  let keys := (groupByCategory grocery_list).map Prod.fst
  let truthy := keys.filterMap fun cat =>
    match cat with
    | none => none
    | some c => if c = "" then none else some c
  (List.insertionSort lowerLE truthy).map some ++
    (if keys.contains none then [none] else [])

/-- Line 150: the entries of one category section, sorted by normalized name
(`sorted` is stable; embedded as the stable insertion sort). -/
def entriesForCategory (grocery_list : List Ingredient) (cat : Option String) :
    List Ingredient :=
  List.insertionSort nameLE (lookupGroup cat (groupByCategory grocery_list))

/-- All ingredients the display loop renders, in rendering order. -/
def displayedIngredients (grocery_list : List Ingredient) : List Ingredient :=
  (displayedCategories grocery_list).flatMap (entriesForCategory grocery_list)

/-- One decimal digit character. -/
def decimalDigitChar (d : Nat) : Char :=
  match d with
  | 0 => '0' | 1 => '1' | 2 => '2' | 3 => '3' | 4 => '4'
  | 5 => '5' | 6 => '6' | 7 => '7' | 8 => '8' | _ => '9'

/-- Decimal digits of a natural number, most significant first (fuel-driven so
that concrete values reduce in the kernel; fuel `n+1` always suffices). -/
def natDigitsAux : Nat → Nat → List Char
  | 0, _ => []
  | fuel+1, n =>
      if n < 10 then [decimalDigitChar n]
      else natDigitsAux fuel (n / 10) ++ [decimalDigitChar (n % 10)]

/-- Python `str` of a non-negative integer. -/
def natRepr (n : Nat) : String := String.mk (natDigitsAux (n + 1) n)

/-- Python `str` of an `int`. -/
def intRepr (i : ℤ) : String :=
  if i < 0 then "-" ++ natRepr i.natAbs else natRepr i.natAbs

/-- Python `int()` applied to an exact rational value: truncation toward zero. -/
def pyInt (q : ℚ) : ℤ := Int.tdiv q.num (q.den : ℤ)

/-- Decimal digits of the fractional part `num/den` (with `num < den`),
produced by repeated multiplication by 10 until the remainder vanishes. -/
def fracDigitsAux : Nat → Nat → Nat → List Char
  | 0, _, _ => []
  | _, 0, _ => []
  | fuel+1, num, den =>
      decimalDigitChar ((num * 10) / den) :: fracDigitsAux fuel ((num * 10) % den) den

/-- Python `str` of the float quantity when it is not an integer: sign, integer
part, `'.'`, and the decimal digits of the fractional part.  A Python float is
a dyadic rational whose decimal expansion terminates and is printed exactly by
`str`; quantities are modelled as rationals, and fuel 1200 exceeds the longest
possible expansion of a double. -/
def ratDecimalRepr (q : ℚ) : String :=
  let sign := if q < 0 then "-" else ""
  let n := q.num.natAbs
  let d := q.den
  sign ++ natRepr (n / d) ++ "." ++ String.mk (fracDigitsAux 1200 (n % d) d)

/-- Lines 151-155: `str(int(q))` when `q == int(q)`, else `str(q)`. -/
def formatQuantity (q : ℚ) : String :=
  if q = (pyInt q : ℚ) then intRepr (pyInt q) else ratDecimalRepr q

/-- Line 157: one bullet line. -/
def ingredientLine (ing : Ingredient) : String :=
  "  • " ++ formatQuantity ing.quantity ++ " " ++ ing.unit ++ " " ++ ing.name

/-- Lines 143-147: a section header. -/
def categoryHeader (cat : Option String) : String :=
  match cat with
  | some c => "\n" ++ pyUpper c ++ ":"
  | none => "\nOTHER:"

/-- Lines 131-157: the rendering loop over the sorted categories, carrying the
`current_category` sentinel that starts at `None` exactly as in the source (so
a leading `None` category would emit no header). -/
def displayLinesAux (grocery_list : List Ingredient) :
    List (Option String) → Option String → List String
  | [], _ => []
  | cat :: rest, current =>
      (if cat ≠ current then [categoryHeader cat] else []) ++
        (entriesForCategory grocery_list cat).map ingredientLine ++
        displayLinesAux grocery_list rest cat

/-- `format_grocery_list_for_display` (lines 116-159). -/
def format_grocery_list_for_display (grocery_list : List Ingredient) : String :=
  "\n".intercalate (displayLinesAux grocery_list (displayedCategories grocery_list) none)

/-! ### Instrumented aggregation

`combineOrInsertLog` is `combineOrInsert` instrumented with, for every
accumulated entry, the list of input occurrences merged into it (in processing
order).  Erasing the log recovers the plain aggregation, and the logs carry
the provenance facts behind several spec sentences: an entry's display fields
come from the first logged occurrence, its quantity is the sum of the logged
quantities, and the logs partition the input occurrences. -/

/-- `combineOrInsert` with provenance logging. -/
def combineOrInsertLog (ingredient : Ingredient) :
    List (Ingredient × List Ingredient) → List (Ingredient × List Ingredient)
  | [] =>
      [(Ingredient.mk ingredient.name ingredient.quantity ingredient.unit ingredient.category,
        [ingredient])]
  | (existing, occs) :: rest =>
      if can_combine_ingredients ingredient existing then
        ({ existing with quantity := existing.quantity + ingredient.quantity },
          occs ++ [ingredient]) :: rest
      else (existing, occs) :: combineOrInsertLog ingredient rest

/-- The aggregation loop with provenance logging. -/
def aggregateIngredientsLog (ins : List Ingredient) :
    List (Ingredient × List Ingredient) :=
  ins.foldl (fun acc ingredient => combineOrInsertLog ingredient acc) []

/-! ### Example plans (from the spec's end-to-end scenario and the test suite) -/

/-- Meal A of the spec's end-to-end scenario. -/
def exampleRecipeA : Recipe :=
  ⟨"Test Meal 1", "Test", 2, MacroProfile.HIGH_PROTEIN_LOW_CARB, "balanced", 10, 30,
   [⟨"chicken breast", 1, "lb", some "meat"⟩, ⟨"broccoli", 2, "cups", some "produce"⟩],
   [⟨1, "Cook"⟩]⟩

/-- Meal B of the spec's end-to-end scenario (`1/2` is the float `0.5`). -/
def exampleRecipeB : Recipe :=
  ⟨"Test Meal 2", "Test", 2, MacroProfile.HIGH_PROTEIN_LOW_CARB, "balanced", 10, 30,
   [⟨"Chicken Breast", 1/2, "lbs", some "meat"⟩, ⟨"carrots", 1, "cup", some "produce"⟩],
   [⟨1, "Cook"⟩]⟩

/-- The two-meal plan of the spec's end-to-end scenario. -/
def twoMealPlan : WeeklyPlan :=
  ⟨[⟨DayOfWeek.MONDAY, "adult", "balanced", exampleRecipeA⟩,
    ⟨DayOfWeek.TUESDAY, "adult", "balanced", exampleRecipeB⟩], ⟨2026, 10, 12⟩⟩

/-- A recipe with one entry per sort category: uncategorized, produce, meat. -/
def mixedCategoryRecipe : Recipe :=
  ⟨"Test", "Test", 2, MacroProfile.HIGH_PROTEIN_LOW_CARB, "balanced", 10, 30,
   [⟨"pasta", 1, "lbs", none⟩, ⟨"broccoli", 2, "cups", some "produce"⟩,
    ⟨"chicken", 1, "lb", some "meat"⟩],
   [⟨1, "Cook"⟩]⟩

/-- A plan with a single meal holding three non-combinable ingredients. -/
def oneMealPlan : WeeklyPlan :=
  ⟨[⟨DayOfWeek.MONDAY, "adult", "balanced", mixedCategoryRecipe⟩], ⟨2026, 10, 12⟩⟩

/-- A concrete configuration value (the aggregator reads none of it). -/
def defaultConfig : Config := ⟨2, 2, 13/10, ["balanced"], []⟩

/-- The compatibility groups exactly as worded in the spec (paragraph 4.1). -/
def spec_compatibility_groups : List (List String) :=
  [["cups", "cup"],
   ["lbs", "lb", "pound", "pounds"],
   ["oz", "ounce", "ounces"],
   ["pieces", "piece", "whole", "item"],
   ["tbsp", "tablespoon", "tablespoons"],
   ["tsp", "teaspoon", "teaspoons"]]

/-- The combinability test as worded in the spec: normalized names equal AND
(normalized units equal OR both units in one predefined compatibility group).
Stated separately from the code's `can_combine_ingredients` so the two can be
compared. -/
def can_combine_spec (a b : Ingredient) : Prop :=
  normalize_ingredient_name a.name = normalize_ingredient_name b.name ∧
  (normalize_unit a.unit = normalize_unit b.unit ∨
   ∃ g ∈ spec_compatibility_groups,
     normalize_unit a.unit ∈ g ∧ normalize_unit b.unit ∈ g)

/-- The invariant tying an aggregated entry to its logged occurrences: the log
is nonempty, the entry's display fields are those of the first logged
occurrence, and the entry's quantity is the sum of the logged quantities. -/
def EntryInvariant (p : Ingredient × List Ingredient) : Prop :=
  ∃ first rest, p.2 = first :: rest ∧
    p.1.name = first.name ∧ p.1.unit = first.unit ∧ p.1.category = first.category ∧
    p.1.quantity = (p.2.map Ingredient.quantity).sum

/-- A recipe holding exactly one ingredient. -/
def singleIngredientRecipe : Recipe :=
  ⟨"Solo", "Test", 2, MacroProfile.BALANCED, "balanced", 5, 10,
   [⟨"rice", 2, "cups", some "pantry"⟩], [⟨1, "Cook"⟩]⟩

/-- A planned meal holding exactly one ingredient. -/
def singleIngredientMeal : PlannedMeal :=
  ⟨DayOfWeek.MONDAY, "adult", "balanced", singleIngredientRecipe⟩

/-! ### Facts about `can_combine_ingredients` -/

/-- `can_combine_ingredients` computes exactly the combinability formula:
equal normalized names, and equal normalized units or a shared group. -/
theorem can_combine_iff (a b : Ingredient) :
    can_combine_ingredients a b = true ↔
      (normalize_ingredient_name a.name = normalize_ingredient_name b.name ∧
       (normalize_unit a.unit = normalize_unit b.unit ∨
        ∃ g ∈ compatible_units,
          normalize_unit a.unit ∈ g ∧ normalize_unit b.unit ∈ g)) := by
  unfold can_combine_ingredients
  by_cases hn : normalize_ingredient_name a.name = normalize_ingredient_name b.name
  · rw [if_neg (not_not_intro hn)]
    by_cases hu : normalize_unit a.unit = normalize_unit b.unit
    · rw [if_pos hu]
      simp [hn, hu]
    · rw [if_neg hu]
      simp only [List.any_eq_true, Bool.and_eq_true, List.contains_iff_exists_mem_beq,
        beq_iff_eq]
      constructor
      · rintro ⟨g, hg, ⟨u1, hu1, he1⟩, ⟨u2, hu2, he2⟩⟩
        refine ⟨hn, Or.inr ⟨g, hg, ?_, ?_⟩⟩
        · rw [he1]; exact hu1
        · rw [he2]; exact hu2
      · rintro ⟨-, h | ⟨g, hg, h1, h2⟩⟩
        · exact absurd h hu
        · exact ⟨g, hg, ⟨_, h1, rfl⟩, ⟨_, h2, rfl⟩⟩
  · rw [if_pos hn]
    simp [hn]

/-- Combinability is symmetric. -/
theorem can_combine_comm (a b : Ingredient) :
    can_combine_ingredients a b = can_combine_ingredients b a := by
  have flip : ∀ x y : Ingredient, can_combine_ingredients x y = true →
      can_combine_ingredients y x = true := by
    intro x y hxy
    obtain ⟨hn, hu⟩ := (can_combine_iff x y).mp hxy
    refine (can_combine_iff y x).mpr ⟨hn.symm, ?_⟩
    rcases hu with h | ⟨g, hg, h1, h2⟩
    · exact Or.inl h.symm
    · exact Or.inr ⟨g, hg, h2, h1⟩
  cases hab : can_combine_ingredients a b with
  | true => exact (flip a b hab).symm
  | false =>
    cases hba : can_combine_ingredients b a with
    | false => rfl
    | true => rw [flip b a hba] at hab; cases hab

/-- Combinability only reads the name and unit of its second argument. -/
theorem can_combine_congr (a b b' : Ingredient)
    (hn : b.name = b'.name) (hu : b.unit = b'.unit) :
    can_combine_ingredients a b = can_combine_ingredients a b' := by
  simp only [can_combine_ingredients, hn, hu]

/-- Combinability only reads the name and unit of its first argument. -/
theorem can_combine_congr_left (a a' b : Ingredient)
    (hn : a.name = a'.name) (hu : a.unit = a'.unit) :
    can_combine_ingredients a b = can_combine_ingredients a' b := by
  simp only [can_combine_ingredients, hn, hu]

/-! ### Facts about the aggregation loop -/

/-- Any entry after a scan step shares name and unit with an entry already
accumulated, or with the incoming ingredient itself. -/
theorem mem_combineOrInsert (ingredient x : Ingredient) (acc : List Ingredient)
    (hx : x ∈ combineOrInsert ingredient acc) :
    (∃ y ∈ acc, x.name = y.name ∧ x.unit = y.unit) ∨
      (x.name = ingredient.name ∧ x.unit = ingredient.unit) := by
  induction acc with
  | nil =>
    simp only [combineOrInsert, List.mem_singleton] at hx
    subst hx; exact Or.inr ⟨rfl, rfl⟩
  | cons existing rest ih =>
    by_cases hc : can_combine_ingredients ingredient existing = true
    · rw [combineOrInsert, if_pos hc] at hx
      rcases List.mem_cons.mp hx with h | h
      · exact Or.inl ⟨existing, List.mem_cons_self existing rest, by rw [h], by rw [h]⟩
      · exact Or.inl ⟨x, List.mem_cons_of_mem _ h, rfl, rfl⟩
    · rw [combineOrInsert, if_neg hc] at hx
      rcases List.mem_cons.mp hx with h | h
      · exact Or.inl ⟨existing, List.mem_cons_self existing rest, by rw [h], by rw [h]⟩
      · rcases ih h with ⟨y, hy, hxy⟩ | hxi
        · exact Or.inl ⟨y, List.mem_cons_of_mem _ hy, hxy⟩
        · exact Or.inr hxi

/-- A scan step preserves pairwise incompatibility of the accumulator. -/
theorem pairwise_combineOrInsert (ingredient : Ingredient) (acc : List Ingredient)
    (h : acc.Pairwise fun a b => can_combine_ingredients a b = false) :
    (combineOrInsert ingredient acc).Pairwise
      fun a b => can_combine_ingredients a b = false := by
  induction acc with
  | nil => simp [combineOrInsert]
  | cons existing rest ih =>
    rcases List.pairwise_cons.mp h with ⟨hhead, htail⟩
    by_cases hc : can_combine_ingredients ingredient existing = true
    · rw [combineOrInsert, if_pos hc]
      refine List.pairwise_cons.mpr ⟨?_, htail⟩
      intro x hx
      exact (can_combine_congr_left _ existing x rfl rfl).trans (hhead x hx)
    · rw [combineOrInsert, if_neg hc]
      refine List.pairwise_cons.mpr ⟨?_, ih htail⟩
      intro x hx
      rcases mem_combineOrInsert ingredient x rest hx with ⟨y, hy, hn, hu⟩ | ⟨hn, hu⟩
      · rw [can_combine_congr existing x y hn hu]
        exact hhead y hy
      · rw [can_combine_congr existing x ingredient hn hu, can_combine_comm]
        simpa using hc

/-- The aggregated working list is pairwise incompatible. -/
theorem pairwise_aggregateIngredients (ins : List Ingredient) :
    (aggregateIngredients ins).Pairwise
      fun a b => can_combine_ingredients a b = false := by
  suffices h : ∀ acc : List Ingredient,
      acc.Pairwise (fun a b => can_combine_ingredients a b = false) →
      (ins.foldl (fun a i => combineOrInsert i a) acc).Pairwise
        fun a b => can_combine_ingredients a b = false by
    exact h [] (List.Pairwise.nil)
  induction ins with
  | nil => intro acc hacc; exact hacc
  | cons i ins ih =>
    intro acc hacc
    exact ih _ (pairwise_combineOrInsert i acc hacc)

/-- A scan step adds exactly the incoming quantity to the accumulated total. -/
theorem sum_quantity_combineOrInsert (ingredient : Ingredient) (acc : List Ingredient) :
    ((combineOrInsert ingredient acc).map Ingredient.quantity).sum =
      (acc.map Ingredient.quantity).sum + ingredient.quantity := by
  induction acc with
  | nil => simp [combineOrInsert]
  | cons existing rest ih =>
    by_cases hc : can_combine_ingredients ingredient existing = true
    · rw [combineOrInsert, if_pos hc]
      simp only [List.map_cons, List.sum_cons]
      ring
    · rw [combineOrInsert, if_neg hc]
      simp only [List.map_cons, List.sum_cons, ih]
      ring

/-- Aggregation conserves the total quantity. -/
theorem sum_quantity_aggregateIngredients (ins : List Ingredient) :
    ((aggregateIngredients ins).map Ingredient.quantity).sum =
      (ins.map Ingredient.quantity).sum := by
  suffices h : ∀ acc : List Ingredient,
      ((ins.foldl (fun a i => combineOrInsert i a) acc).map Ingredient.quantity).sum =
        (acc.map Ingredient.quantity).sum + (ins.map Ingredient.quantity).sum by
    simpa using h []
  induction ins with
  | nil => intro acc; simp
  | cons i ins ih =>
    intro acc
    simp only [List.foldl_cons, List.map_cons, List.sum_cons]
    rw [ih, sum_quantity_combineOrInsert]
    ring

/-- A scan step grows the accumulator by at most one entry. -/
theorem length_combineOrInsert (ingredient : Ingredient) (acc : List Ingredient) :
    (combineOrInsert ingredient acc).length ≤ acc.length + 1 := by
  induction acc with
  | nil => simp [combineOrInsert]
  | cons existing rest ih =>
    by_cases hc : can_combine_ingredients ingredient existing = true
    · rw [combineOrInsert, if_pos hc]; simp
    · rw [combineOrInsert, if_neg hc]
      simp only [List.length_cons]
      omega

/-- The aggregated list is no longer than the input occurrence list. -/
theorem length_aggregateIngredients (ins : List Ingredient) :
    (aggregateIngredients ins).length ≤ ins.length := by
  suffices h : ∀ acc : List Ingredient,
      (ins.foldl (fun a i => combineOrInsert i a) acc).length ≤
        acc.length + ins.length by
    simpa using h []
  induction ins with
  | nil => intro acc; simp
  | cons i ins ih =>
    intro acc
    simp only [List.foldl_cons, List.length_cons]
    calc (ins.foldl (fun a i => combineOrInsert i a) (combineOrInsert i acc)).length
        ≤ (combineOrInsert i acc).length + ins.length := ih _
      _ ≤ (acc.length + 1) + ins.length := by
          have := length_combineOrInsert i acc; omega
      _ = acc.length + (ins.length + 1) := by omega

/-! ### Facts about the instrumented aggregation -/

/-- Erasing the log from one scan step recovers the plain scan step. -/
theorem map_fst_combineOrInsertLog (ingredient : Ingredient)
    (acc : List (Ingredient × List Ingredient)) :
    (combineOrInsertLog ingredient acc).map Prod.fst =
      combineOrInsert ingredient (acc.map Prod.fst) := by
  induction acc with
  | nil => rfl
  | cons p rest ih =>
    obtain ⟨existing, occs⟩ := p
    by_cases hc : can_combine_ingredients ingredient existing = true
    · rw [combineOrInsertLog, if_pos hc]
      simp only [List.map_cons]
      rw [combineOrInsert, if_pos hc]
    · rw [combineOrInsertLog, if_neg hc]
      simp only [List.map_cons]
      rw [combineOrInsert, if_neg hc, ih]

/-- Erasing the logs recovers the plain aggregation. -/
theorem map_fst_aggregateIngredientsLog (ins : List Ingredient) :
    (aggregateIngredientsLog ins).map Prod.fst = aggregateIngredients ins := by
  suffices h : ∀ acc : List (Ingredient × List Ingredient),
      (ins.foldl (fun a i => combineOrInsertLog i a) acc).map Prod.fst =
        ins.foldl (fun a i => combineOrInsert i a) (acc.map Prod.fst) by
    exact h []
  induction ins with
  | nil => intro acc; rfl
  | cons i ins ih =>
    intro acc
    simp only [List.foldl_cons]
    rw [ih, map_fst_combineOrInsertLog]

/-- One scan step preserves the entry invariant. -/
theorem entryInvariant_combineOrInsertLog (ingredient : Ingredient)
    (acc : List (Ingredient × List Ingredient))
    (h : ∀ p ∈ acc, EntryInvariant p) :
    ∀ p ∈ combineOrInsertLog ingredient acc, EntryInvariant p := by
  induction acc with
  | nil =>
    intro p hp
    simp only [combineOrInsertLog, List.mem_singleton] at hp
    subst hp
    exact ⟨ingredient, [], rfl, rfl, rfl, rfl, by simp⟩
  | cons q rest ih =>
    obtain ⟨existing, occs⟩ := q
    intro p hp
    by_cases hc : can_combine_ingredients ingredient existing = true
    · rw [combineOrInsertLog, if_pos hc] at hp
      rcases List.mem_cons.mp hp with h1 | h1
      · obtain ⟨first, rest', hocc, hname, hunit, hcat, hq⟩ :=
          h ⟨existing, occs⟩ (List.mem_cons_self _ _)
        simp only at hocc hname hunit hcat hq
        subst h1
        refine ⟨first, rest' ++ [ingredient], by simp [hocc], hname, hunit, hcat, ?_⟩
        simp only [List.map_append, List.sum_append, List.map_cons, List.sum_cons,
          List.map_nil, List.sum_nil]
        rw [hq, hocc]
        simp only [List.map_cons, List.sum_cons]
        ring
      · exact h p (List.mem_cons_of_mem _ h1)
    · rw [combineOrInsertLog, if_neg hc] at hp
      rcases List.mem_cons.mp hp with h1 | h1
      · subst h1; exact h _ (List.mem_cons_self _ _)
      · exact ih (fun r hr => h r (List.mem_cons_of_mem _ hr)) p h1

/-- Every aggregated entry satisfies the entry invariant. -/
theorem entryInvariant_aggregateIngredientsLog (ins : List Ingredient) :
    ∀ p ∈ aggregateIngredientsLog ins, EntryInvariant p := by
  suffices h : ∀ acc : List (Ingredient × List Ingredient),
      (∀ p ∈ acc, EntryInvariant p) →
      ∀ p ∈ ins.foldl (fun a i => combineOrInsertLog i a) acc, EntryInvariant p by
    exact h [] (by intro p hp; cases hp)
  induction ins with
  | nil => intro acc hacc; exact hacc
  | cons i ins ih =>
    intro acc hacc
    exact ih _ (entryInvariant_combineOrInsertLog i acc hacc)

/-- One scan step appends the incoming ingredient to exactly one log. -/
theorem flatten_snd_combineOrInsertLog (ingredient : Ingredient)
    (acc : List (Ingredient × List Ingredient)) :
    List.Perm (((combineOrInsertLog ingredient acc).map Prod.snd).flatten)
      (((acc.map Prod.snd).flatten) ++ [ingredient]) := by
  induction acc with
  | nil => simp [combineOrInsertLog]
  | cons q rest ih =>
    obtain ⟨existing, occs⟩ := q
    by_cases hc : can_combine_ingredients ingredient existing = true
    · rw [combineOrInsertLog, if_pos hc]
      simp only [List.map_cons, List.flatten_cons]
      rw [List.append_assoc, List.append_assoc]
      exact (List.perm_append_comm).append_left occs
    · rw [combineOrInsertLog, if_neg hc]
      simp only [List.map_cons, List.flatten_cons]
      rw [List.append_assoc]
      exact ih.append_left occs

/-- The logs of the aggregation partition the input occurrences: their
concatenation is a permutation of the input list. -/
theorem flatten_snd_aggregateIngredientsLog (ins : List Ingredient) :
    List.Perm (((aggregateIngredientsLog ins).map Prod.snd).flatten) ins := by
  suffices h : ∀ acc : List (Ingredient × List Ingredient),
      List.Perm ((ins.foldl (fun a i => combineOrInsertLog i a) acc).map Prod.snd).flatten
        (((acc.map Prod.snd).flatten) ++ ins) by
    simpa using h []
  induction ins with
  | nil => intro acc; simp
  | cons i ins ih =>
    intro acc
    simp only [List.foldl_cons]
    refine (ih _).trans ?_
    refine ((flatten_snd_combineOrInsertLog i acc).append_right ins).trans ?_
    simp

/-! ### Facts about the display grouping -/

/-- Grouping preserves the fact that every member carries its group's key. -/
theorem category_addToGroups (groups : List (Option String × List Ingredient))
    (ing : Ingredient)
    (h : ∀ p ∈ groups, ∀ x ∈ p.2, x.category = p.1) :
    ∀ p ∈ addToGroups groups ing, ∀ x ∈ p.2, x.category = p.1 := by
  induction groups with
  | nil =>
    intro p hp x hx
    simp only [addToGroups, List.mem_singleton] at hp
    subst hp
    simp only [List.mem_singleton] at hx
    subst hx
    rfl
  | cons q rest ih =>
    obtain ⟨cat, members⟩ := q
    intro p hp x hx
    by_cases hc : cat = ing.category
    · rw [addToGroups, if_pos hc] at hp
      rcases List.mem_cons.mp hp with h1 | h1
      · subst h1
        simp only [List.mem_append, List.mem_singleton] at hx
        rcases hx with hx | hx
        · exact h (cat, members) (List.mem_cons_self _ _) x hx
        · subst hx; exact hc.symm
      · exact h p (List.mem_cons_of_mem _ h1) x hx
    · rw [addToGroups, if_neg hc] at hp
      rcases List.mem_cons.mp hp with h1 | h1
      · subst h1; exact h _ (List.mem_cons_self _ _) x hx
      · exact ih (fun r hr => h r (List.mem_cons_of_mem _ hr)) p h1 x hx

/-- Every member of a category group carries that group's key as category. -/
theorem category_groupByCategory (grocery_list : List Ingredient) :
    ∀ p ∈ groupByCategory grocery_list, ∀ x ∈ p.2, x.category = p.1 := by
  suffices h : ∀ acc : List (Option String × List Ingredient),
      (∀ p ∈ acc, ∀ x ∈ p.2, x.category = p.1) →
      ∀ p ∈ grocery_list.foldl addToGroups acc, ∀ x ∈ p.2, x.category = p.1 by
    exact h [] (by intro p hp; cases hp)
  induction grocery_list with
  | nil => intro acc hacc; exact hacc
  | cons i rest ih =>
    intro acc hacc
    exact ih _ (category_addToGroups acc i hacc)

/-- `lookupGroup` only returns members of an actual group with that key. -/
theorem mem_lookupGroup (cat : Option String)
    (groups : List (Option String × List Ingredient)) (x : Ingredient)
    (hx : x ∈ lookupGroup cat groups) :
    ∃ members, (cat, members) ∈ groups ∧ x ∈ members := by
  induction groups with
  | nil => cases hx
  | cons q rest ih =>
    obtain ⟨c, members⟩ := q
    by_cases hc : c = cat
    · rw [lookupGroup, if_pos hc] at hx
      exact ⟨members, by rw [← hc]; exact List.mem_cons_self _ _, hx⟩
    · rw [lookupGroup, if_neg hc] at hx
      obtain ⟨members', hm, hxm⟩ := ih hx
      exact ⟨members', List.mem_cons_of_mem _ hm, hxm⟩

/-- The rendered category list never contains the empty-string category. -/
theorem displayedCategories_ne_empty_string (grocery_list : List Ingredient)
    (cat : Option String) (hcat : cat ∈ displayedCategories grocery_list) :
    cat ≠ some "" := by
  unfold displayedCategories at hcat
  rcases List.mem_append.mp hcat with h | h
  · obtain ⟨s, hs, rfl⟩ := List.mem_map.mp h
    have hs2 : s ∈ List.filterMap
        (fun cat => match cat with
          | none => none
          | some c => if c = "" then none else some c)
        ((groupByCategory grocery_list).map Prod.fst) :=
      (List.perm_insertionSort lowerLE _).mem_iff.mp hs
    obtain ⟨c0, hc0mem, hc0⟩ := List.mem_filterMap.mp hs2
    intro hcontra
    have hse : s = "" := Option.some.inj hcontra
    match c0, hc0 with
    | none, hc0 => exact Option.noConfusion hc0
    | some c, hc0 =>
      simp only at hc0
      by_cases hce : c = ""
      · rw [if_pos hce] at hc0; exact Option.noConfusion hc0
      · rw [if_neg hce] at hc0
        exact hce ((Option.some.inj hc0).trans hse)
  · by_cases hnone :
        ((groupByCategory grocery_list).map Prod.fst).contains none = true
    · rw [if_pos hnone] at h
      simp only [List.mem_singleton] at h
      subst h
      exact fun hcontra => Option.noConfusion hcontra
    · rw [if_neg hnone] at h
      cases h

/-- Every rendered ingredient belongs to a rendered category group. -/
theorem displayedIngredients_category (grocery_list : List Ingredient)
    (ing : Ingredient) (hing : ing ∈ displayedIngredients grocery_list) :
    ∃ cat ∈ displayedCategories grocery_list, ing.category = cat := by
  obtain ⟨cat, hcat, hmem⟩ := List.mem_flatMap.mp hing
  have hlk : ing ∈ lookupGroup cat (groupByCategory grocery_list) :=
    (List.perm_insertionSort nameLE _).mem_iff.mp hmem
  obtain ⟨members, hgrp, hin⟩ := mem_lookupGroup cat _ ing hlk
  exact ⟨cat, hcat, category_groupByCategory grocery_list (cat, members) hgrp ing hin⟩

/-! ### Facts about quantity rendering -/

/-- Decimal digit characters are never the decimal point. -/
theorem decimalDigitChar_ne_dot (d : Nat) : decimalDigitChar d ≠ '.' := by
  rcases d with _|_|_|_|_|_|_|_|_|d
  · decide
  · decide
  · decide
  · decide
  · decide
  · decide
  · decide
  · decide
  · decide
  · show ('9' : Char) ≠ '.'
    decide

/-- All characters produced by `natDigitsAux` are decimal digits. -/
theorem natDigitsAux_ne_dot (fuel : Nat) :
    ∀ (n : Nat), ∀ c ∈ natDigitsAux fuel n, c ≠ '.' := by
  induction fuel with
  | zero => intro n c hc; cases hc
  | succ fuel ih =>
    intro n c hc
    rw [natDigitsAux] at hc
    by_cases hn : n < 10
    · rw [if_pos hn] at hc
      simp only [List.mem_singleton] at hc
      subst hc
      exact decimalDigitChar_ne_dot n
    · rw [if_neg hn] at hc
      rcases List.mem_append.mp hc with h | h
      · exact ih (n / 10) c h
      · simp only [List.mem_singleton] at h
        subst h
        exact decimalDigitChar_ne_dot (n % 10)

/-- `natRepr` contains no decimal point. -/
theorem natRepr_no_dot (n : Nat) : '.' ∉ (natRepr n).data := by
  intro h
  exact natDigitsAux_ne_dot (n + 1) n '.' h rfl

/-- The Python rendering of an integer contains no decimal point. -/
theorem intRepr_no_dot (i : ℤ) : '.' ∉ (intRepr i).data := by
  unfold intRepr
  by_cases hi : i < 0
  · rw [if_pos hi]
    intro h
    rw [String.data_append] at h
    rcases List.mem_append.mp h with h1 | h1
    · simp only [List.mem_singleton] at h1
      cases h1
    · exact natRepr_no_dot i.natAbs h1
  · rw [if_neg hi]
    exact natRepr_no_dot i.natAbs

/-- Python `int()` of an integral rational is its numerator. -/
theorem pyInt_of_den_eq_one (q : ℚ) (h : q.den = 1) : pyInt q = q.num := by
  unfold pyInt
  rw [h]
  simp

/-- Integral quantities take the `str(int(q))` branch. -/
theorem formatQuantity_int (q : ℚ) (h : q.den = 1) :
    formatQuantity q = intRepr q.num := by
  unfold formatQuantity
  rw [pyInt_of_den_eq_one q h,
    if_pos (((Rat.den_eq_one_iff q).mp h).symm)]

/-- Non-integral quantities take the raw-decimal branch. -/
theorem formatQuantity_nonint (q : ℚ) (h : q.den ≠ 1) :
    formatQuantity q = ratDecimalRepr q := by
  unfold formatQuantity
  rw [if_neg]
  intro hcontra
  apply h
  rw [hcontra]
  exact Rat.den_intCast (pyInt q)

/-- Totals distribute over the meal structure of a plan. -/
theorem sum_quantity_flatMap (meals : List PlannedMeal) :
    ((meals.flatMap fun meal => meal.recipe.ingredients).map Ingredient.quantity).sum =
      (meals.map fun meal =>
        ((meal.recipe.ingredients.map Ingredient.quantity).sum)).sum := by
  induction meals with
  | nil => rfl
  | cons m rest ih =>
    simp only [List.flatMap_cons, List.map_append, List.sum_append, List.map_cons,
      List.sum_cons, ih]

/-! ### The claims -/

/-- C1: for every plan, no two entries of `generate_grocery_list`'s output
have names equal under name-normalization together with units equal under
unit-normalization or lying in a common compatibility group; every such pair
of input occurrences was merged during aggregation. -/
theorem no_duplicate_entries (plan : WeeklyPlan) (config : Config) :
    (generate_grocery_list plan config).Pairwise fun a b =>
      ¬(normalize_ingredient_name a.name = normalize_ingredient_name b.name ∧
        (normalize_unit a.unit = normalize_unit b.unit ∨
         ∃ g ∈ compatible_units,
           normalize_unit a.unit ∈ g ∧ normalize_unit b.unit ∈ g)) := by
  have hsym : ∀ {x y : Ingredient}, can_combine_ingredients x y = false →
      can_combine_ingredients y x = false := by
    intro x y hxy
    rw [can_combine_comm]
    exact hxy
  have hpair : (generate_grocery_list plan config).Pairwise
      fun a b => can_combine_ingredients a b = false := by
    simp only [generate_grocery_list]
    exact ((List.perm_insertionSort ingLE _).pairwise_iff hsym).mpr
      (pairwise_aggregateIngredients _)
  refine hpair.imp ?_
  intro a b hab hcontra
  rw [(can_combine_iff a b).mpr hcontra] at hab
  cases hab

/-- C2: `can_combine_ingredients` agrees with the spec's combinability
formula; names differing after normalization never combine; the spec's two
concrete examples behave as stated. -/
theorem can_combine_matches_spec :
    (∀ a b : Ingredient, can_combine_ingredients a b = true ↔ can_combine_spec a b)
    ∧ (∀ a b : Ingredient,
        normalize_ingredient_name a.name ≠ normalize_ingredient_name b.name →
        can_combine_ingredients a b = false)
    ∧ can_combine_ingredients ⟨"Chicken Breast", 1, "lb", some "meat"⟩
        ⟨"chicken breast", 1, "lbs", some "meat"⟩ = true
    ∧ can_combine_ingredients ⟨"tomatoes", 2, "cups", some "produce"⟩
        ⟨"chicken", 1, "lb", some "meat"⟩ = false := by
  refine ⟨?_, ?_, by decide, by decide⟩
  · intro a b
    rw [can_combine_iff]
    unfold can_combine_spec spec_compatibility_groups compatible_units
    exact Iff.rfl
  · intro a b hne
    cases hcc : can_combine_ingredients a b with
    | false => rfl
    | true => exact absurd ((can_combine_iff a b).mp hcc).1 hne

/-- C2 witness: the theorem instantiated on the spec's concrete pairs. -/
theorem can_combine_matches_spec_witness :
    can_combine_spec ⟨"Chicken Breast", 1, "lb", some "meat"⟩
      ⟨"chicken breast", 1, "lbs", some "meat"⟩
    ∧ can_combine_ingredients ⟨"tomatoes", 2, "cups", some "produce"⟩
        ⟨"chicken", 1, "lb", some "meat"⟩ = false :=
  ⟨(can_combine_matches_spec.1 _ _).mp (by decide),
   can_combine_matches_spec.2.1 ⟨"tomatoes", 2, "cups", some "produce"⟩
     ⟨"chicken", 1, "lb", some "meat"⟩ (by decide)⟩

/-- C3: merging is quantity-additive: the incoming quantity is added to the
first combinable accumulated entry (first match wins, the scan stops); every
aggregated entry's quantity is the sum of the quantities of the occurrences
merged into it; aggregating `1 lb chicken` and `1/2 lbs chicken` yields one
entry of quantity `3/2`. -/
theorem merging_quantity_additive :
    (∀ (ingredient e : Ingredient) (pre post : List Ingredient),
        (∀ x ∈ pre, can_combine_ingredients ingredient x = false) →
        can_combine_ingredients ingredient e = true →
        combineOrInsert ingredient (pre ++ e :: post) =
          pre ++ { e with quantity := e.quantity + ingredient.quantity } :: post)
    ∧ (∀ ins : List Ingredient, ∀ p ∈ aggregateIngredientsLog ins,
        p.1.quantity = (p.2.map Ingredient.quantity).sum)
    ∧ aggregateIngredients
        [⟨"chicken", 1, "lb", some "meat"⟩, ⟨"chicken", 1/2, "lbs", some "meat"⟩] =
        [⟨"chicken", 3/2, "lb", some "meat"⟩] := by
  refine ⟨?_, ?_, by with_unfolding_all decide⟩
  · intro ingredient e pre post hpre he
    induction pre with
    | nil => rw [List.nil_append, List.nil_append, combineOrInsert, if_pos he]
    | cons x pre ih =>
      have hx : can_combine_ingredients ingredient x = false :=
        hpre x (List.mem_cons_self _ _)
      rw [List.cons_append, combineOrInsert, if_neg (by simp [hx]),
        ih (fun y hy => hpre y (List.mem_cons_of_mem _ hy)), List.cons_append]
  · intro ins p hp
    obtain ⟨first, rest, hocc, hn, hu, hcat, hq⟩ :=
      entryInvariant_aggregateIngredientsLog ins p hp
    exact hq

/-- C3 witness: the first-match step applied to a concrete accumulator. -/
theorem merging_quantity_additive_witness :
    combineOrInsert ⟨"chicken", 1/2, "lbs", some "meat"⟩
        ([⟨"broccoli", 2, "cups", some "produce"⟩] ++
          (⟨"chicken", 1, "lb", some "meat"⟩ : Ingredient) :: []) =
      [⟨"broccoli", 2, "cups", some "produce"⟩] ++
        ({ (⟨"chicken", 1, "lb", some "meat"⟩ : Ingredient) with
            quantity := (⟨"chicken", 1, "lb", some "meat"⟩ : Ingredient).quantity +
              (⟨"chicken", 1/2, "lbs", some "meat"⟩ : Ingredient).quantity } :: []) :=
  merging_quantity_additive.1 ⟨"chicken", 1/2, "lbs", some "meat"⟩
    ⟨"chicken", 1, "lb", some "meat"⟩ [⟨"broccoli", 2, "cups", some "produce"⟩] []
    (by decide) (by decide)

/-- C4: the output is sorted by the key (lowercased category, with `None` and
`""` replaced by the literal `"zzz_uncategorized"`; normalized name); in the
mixed-category example the meat entry precedes produce, which precedes the
uncategorized entry. -/
theorem output_sorted_by_category_then_name :
    (∀ (plan : WeeklyPlan) (config : Config),
        (generate_grocery_list plan config).Pairwise fun a b =>
          keyLE (sort_key a) (sort_key b))
    ∧ generate_grocery_list oneMealPlan defaultConfig =
        [⟨"chicken", 1, "lb", some "meat"⟩,
         ⟨"broccoli", 2, "cups", some "produce"⟩,
         ⟨"pasta", 1, "lbs", none⟩] := by
  constructor
  · intro plan config
    simp only [generate_grocery_list]
    exact List.sorted_insertionSort ingLE _
  · with_unfolding_all decide

/-- C5: each output entry's name, unit and category are exactly those of the
first input occurrence (in plan-then-recipe order) merged into it; merging
further occurrences only changes the quantity. -/
theorem output_fields_from_first_occurrence (plan : WeeklyPlan) (config : Config)
    (e : Ingredient) (he : e ∈ generate_grocery_list plan config) :
    ∃ occs first rest,
      (e, occs) ∈ aggregateIngredientsLog (planIngredients plan) ∧
      occs = first :: rest ∧ first ∈ planIngredients plan ∧
      e.name = first.name ∧ e.unit = first.unit ∧ e.category = first.category := by
  have he2 : e ∈ aggregateIngredients (planIngredients plan) := by
    simp only [generate_grocery_list] at he
    exact (List.perm_insertionSort ingLE _).mem_iff.mp he
  rw [← map_fst_aggregateIngredientsLog] at he2
  obtain ⟨p, hp, hpe⟩ := List.mem_map.mp he2
  obtain ⟨first, rest, hocc, hn, hu, hcat, hq⟩ :=
    entryInvariant_aggregateIngredientsLog _ p hp
  have hfirstmem : first ∈ planIngredients plan := by
    have h1 : first ∈ p.2 := by rw [hocc]; exact List.mem_cons_self _ _
    have h2 : first ∈
        ((aggregateIngredientsLog (planIngredients plan)).map Prod.snd).flatten :=
      List.mem_flatten.mpr ⟨p.2, List.mem_map_of_mem Prod.snd hp, h1⟩
    exact (flatten_snd_aggregateIngredientsLog _).mem_iff.mp h2
  refine ⟨p.2, first, rest, ?_, hocc, hfirstmem, ?_, ?_, ?_⟩
  · have heq : (e, p.2) = p := by rw [← hpe]
    rw [heq]; exact hp
  · rw [← hpe]; exact hn
  · rw [← hpe]; exact hu
  · rw [← hpe]; exact hcat

/-- C5 witness: provenance of the combined chicken entry of the end-to-end
scenario. -/
theorem output_fields_from_first_occurrence_witness :
    ∃ occs first rest,
      ((⟨"chicken breast", 3/2, "lb", some "meat"⟩ : Ingredient), occs) ∈
        aggregateIngredientsLog (planIngredients twoMealPlan) ∧
      occs = first :: rest ∧ first ∈ planIngredients twoMealPlan ∧
      (⟨"chicken breast", 3/2, "lb", some "meat"⟩ : Ingredient).name = first.name ∧
      (⟨"chicken breast", 3/2, "lb", some "meat"⟩ : Ingredient).unit = first.unit ∧
      (⟨"chicken breast", 3/2, "lb", some "meat"⟩ : Ingredient).category =
        first.category :=
  output_fields_from_first_occurrence twoMealPlan defaultConfig _
    (by with_unfolding_all decide)

/-- C6 counterexample: in the spec's two-meal scenario the produce entries are
rendered broccoli before carrots (normalized-name order), so the claimed
output order chicken, carrots, broccoli is not produced. -/
theorem end_to_end_claimed_order_refuted :
    (generate_grocery_list twoMealPlan defaultConfig).map Ingredient.name ≠
      ["chicken breast", "carrots", "broccoli"] := by
  with_unfolding_all decide

/-- C6 amended: the scenario yields exactly three entries: the combined
chicken (quantity `3/2`, unit `lb`) first, then broccoli and carrots in that
alphabetical order under produce. -/
theorem end_to_end_scenario :
    generate_grocery_list twoMealPlan defaultConfig =
      [⟨"chicken breast", 3/2, "lb", some "meat"⟩,
       ⟨"broccoli", 2, "cups", some "produce"⟩,
       ⟨"carrots", 1, "cup", some "produce"⟩] := by
  with_unfolding_all decide

/-- C7 counterexample: a plan with one meal whose recipe has three pairwise
non-combinable ingredients produces three entries, neither empty nor a
singleton. -/
theorem one_meal_plan_three_entries :
    ¬((generate_grocery_list oneMealPlan defaultConfig).length = 0 ∨
      (generate_grocery_list oneMealPlan defaultConfig).length = 1) := by
  with_unfolding_all decide

/-- C7 amended: the aggregator is a total function of its typed input; a plan
with zero meals yields the empty list, and a plan with one meal yields at most
one entry per recipe ingredient — so a one-meal plan whose recipe has at most
one ingredient degrades to an empty or singleton list (a one-ingredient recipe
yields exactly that ingredient). -/
theorem degrades_gracefully :
    (∀ (config : Config) (d : CalDate), generate_grocery_list ⟨[], d⟩ config = [])
    ∧ (∀ (config : Config) (d : CalDate) (meal : PlannedMeal),
        (generate_grocery_list ⟨[meal], d⟩ config).length ≤
          meal.recipe.ingredients.length)
    ∧ (∀ (config : Config) (d : CalDate) (meal : PlannedMeal) (i : Ingredient),
        meal.recipe.ingredients = [i] →
        generate_grocery_list ⟨[meal], d⟩ config = [i]) := by
  refine ⟨?_, ?_, ?_⟩
  · intro config d
    rfl
  · intro config d meal
    simp only [generate_grocery_list]
    rw [(List.perm_insertionSort ingLE _).length_eq]
    have h1 : planIngredients ⟨[meal], d⟩ = meal.recipe.ingredients := by
      simp [planIngredients]
    rw [h1]
    exact length_aggregateIngredients _
  · intro config d meal i hi
    have h1 : planIngredients ⟨[meal], d⟩ = [i] := by
      simp [planIngredients, hi]
    simp only [generate_grocery_list, h1]
    rfl

/-- C7 witness: the amended statement on concrete plans. -/
theorem degrades_gracefully_witness :
    generate_grocery_list ⟨[], ⟨2026, 10, 12⟩⟩ defaultConfig = [] ∧
    (generate_grocery_list
        ⟨[⟨DayOfWeek.MONDAY, "adult", "balanced", mixedCategoryRecipe⟩],
         ⟨2026, 10, 12⟩⟩ defaultConfig).length ≤
      mixedCategoryRecipe.ingredients.length ∧
    generate_grocery_list ⟨[singleIngredientMeal], ⟨2026, 10, 12⟩⟩ defaultConfig =
      [⟨"rice", 2, "cups", some "pantry"⟩] :=
  ⟨degrades_gracefully.1 defaultConfig _,
   degrades_gracefully.2.1 defaultConfig _ _,
   degrades_gracefully.2.2 defaultConfig _ singleIngredientMeal _ rfl⟩

/-- C8: in the rendered display, an entry whose quantity is mathematically an
integer is printed via `str(int(q))` — a digit string with no decimal point —
and any other quantity is printed as its raw decimal expansion with no
rounding; `2` renders as `"2"` and `3/2` (the float `1.5`) as `"1.5"`. -/
theorem quantity_display_rule :
    (∀ q : ℚ, q.den = 1 →
        formatQuantity q = intRepr q.num ∧ '.' ∉ (formatQuantity q).data)
    ∧ (∀ q : ℚ, q.den ≠ 1 → formatQuantity q = ratDecimalRepr q)
    ∧ formatQuantity 2 = "2" ∧ formatQuantity (3/2) = "1.5" := by
  refine ⟨?_, formatQuantity_nonint, ?_, ?_⟩
  · intro q h
    refine ⟨formatQuantity_int q h, ?_⟩
    rw [formatQuantity_int q h]
    exact intRepr_no_dot q.num
  · with_unfolding_all decide
  · with_unfolding_all decide

/-- C8 witness: both branches instantiated on concrete quantities. -/
theorem quantity_display_rule_witness :
    ((5 : ℚ).den = 1 ∧ formatQuantity 5 = intRepr (5 : ℚ).num ∧
      '.' ∉ (formatQuantity 5).data)
    ∧ ((3/2 : ℚ).den ≠ 1 ∧ formatQuantity (3/2) = ratDecimalRepr (3/2)) := by
  have h1 : (5 : ℚ).den = 1 := by with_unfolding_all decide
  have h2 : (3/2 : ℚ).den ≠ 1 := by with_unfolding_all decide
  exact ⟨⟨h1, quantity_display_rule.1 5 h1⟩, ⟨h2, quantity_display_rule.2.1 (3/2) h2⟩⟩

/-- C9: `format_grocery_list_for_display` renders no entry whose category is
the empty string: such categories are dropped from the section list and the
`OTHER:` section collects only `None`, so the entry vanishes — a list holding
only such an entry formats to the empty string. -/
theorem empty_string_category_hidden :
    (∀ (grocery_list : List Ingredient) (ing : Ingredient),
        ing ∈ displayedIngredients grocery_list → ing.category ≠ some "")
    ∧ format_grocery_list_for_display [⟨"salt", 1, "tsp", some ""⟩] = "" := by
  constructor
  · intro gl ing hing
    obtain ⟨cat, hcat, hc⟩ := displayedIngredients_category gl ing hing
    rw [hc]
    exact displayedCategories_ne_empty_string gl cat hcat
  · with_unfolding_all decide

/-- C9 witness: an entry with a real category is displayed, and the theorem
applied to it confirms its category is not the empty string. -/
theorem empty_string_category_hidden_witness :
    (⟨"salt", 1, "tsp", some "spice"⟩ : Ingredient).category ≠ some "" :=
  empty_string_category_hidden.1 [⟨"salt", 1, "tsp", some "spice"⟩] _
    (by with_unfolding_all decide)

/-- C10: quantity conservation: the quantities of the returned entries sum to
the total quantity over all ingredient occurrences of all meals of the plan. -/
theorem quantity_conservation (plan : WeeklyPlan) (config : Config) :
    ((generate_grocery_list plan config).map Ingredient.quantity).sum =
      (plan.meals.map fun meal =>
        ((meal.recipe.ingredients.map Ingredient.quantity).sum)).sum := by
  simp only [generate_grocery_list]
  have hperm := (List.perm_insertionSort ingLE
    (aggregateIngredients (planIngredients plan))).map Ingredient.quantity
  rw [hperm.sum_eq, sum_quantity_aggregateIngredients]
  exact sum_quantity_flatMap plan.meals
